import Mathlib

/-!
Shallow embedding of the StudioIngest vision / timeline-segmentation engine.

Numeric values (JS `number`) are modelled as rationals `ℚ`; machine floats
are treated at their real-number semantics.  External OpenCV calls
(contour extraction, mask pixel counts) are modelled as abstract inputs
attached to the frame/image values; all decision logic is translated from
the source.

Sources:
- `src/App.tsx` : `getKeepRanges` (range inversion sweep)
- `src/utils/ffmpegBuilder.ts` : `Range`
- `src/unnamed/part_003` (useVisionEngine) : `DetectionRange`, `processDetections`
- `src/utils/visionDetection.ts` : `scanFrame`, `calculateIoU`
- `src/unnamed/part_001` (visionCalibration) : `getHsvRange`, `calibrateReference`
-/

namespace Fredalizer

/-- A keep range, from `src/utils/ffmpegBuilder.ts` (`interface Range`). -/
structure Range where
  start : ℚ
  «end» : ℚ
  deriving DecidableEq, Repr

/-- A detection range, from `src/unnamed/part_003` (`interface DetectionRange`). -/
structure DetectionRange where
  start : ℚ
  «end» : ℚ
  confidence : ℚ
  deriving DecidableEq, Repr

/-- The body of the `sortedDetections.forEach` loop of `getKeepRanges`
(`src/App.tsx`, lines 94-100), written as structural recursion on the list of
detections.  The state is the pair (emitted keep list, `currentCursor`); the
keep emitted for the head detection precedes those of the tail, matching the
push order of the imperative loop. -/
def sweep : List DetectionRange → ℚ → List Range × ℚ
  | [], c => ([], c)
  | d :: rest, c =>
    let s := sweep rest (max c d.«end»)
    if c + 1/10 < d.start then ({ start := c, «end» := d.start } :: s.1, s.2) else s

/-- `getKeepRanges` from `src/App.tsx` (lines 83-109).  `!videoDuration` is
modelled as `videoDuration = 0`; the JS stable sort by `a.start - b.start` is
modelled as a stable insertion sort on `·.start ≤ ·.start`. -/
def getKeepRanges (videoDuration : ℚ) (detections : List DetectionRange) : List Range :=
  if videoDuration = 0 then []
  else if detections = [] then [{ start := 0, «end» := videoDuration }]
  else
    let sortedDetections := List.insertionSort (fun a b => a.start ≤ b.start) detections
    let s := sweep sortedDetections 0
    if s.2 < videoDuration - 1/10 then s.1 ++ [{ start := s.2, «end» := videoDuration }] else s.1

/-- The loop of `processDetections` (`src/unnamed/part_003`, lines 37-46):
state is the pair (`start`, `prev`); a gap greater than the 0.5 tolerance
closes the current range, and the final range is closed when the input ends. -/
def clusterLoop (start prev : ℚ) : List ℚ → List DetectionRange
  | [] => [{ start := start, «end» := prev, confidence := 1 }]
  | curr :: rest =>
    if curr - prev > 1/2 then
      { start := start, «end» := prev, confidence := 1 } :: clusterLoop curr curr rest
    else clusterLoop start curr rest

/-- `processDetections` from `src/unnamed/part_003` (lines 26-49).  The JS
stable sort of the timestamp copy is modelled as a stable insertion sort;
the `[]` match arm is unreachable (sorting a nonempty list is nonempty) and
mirrors the source's reliance on `sorted[0]` existing. -/
def processDetections (timestamps : List ℚ) : List DetectionRange :=
  if timestamps.length = 0 then []
  else
    match List.insertionSort (fun a b => a ≤ b) timestamps with
    | [] => []
    | t :: rest => clusterLoop t t rest

/-- A rectangle, as consumed by `calculateIoU` (`cv.boundingRect` shape:
`{x, y, width, height}`). -/
structure Rect where
  x : ℚ
  y : ℚ
  width : ℚ
  height : ℚ
  deriving DecidableEq, Repr

/-- `calculateIoU` from `src/utils/visionDetection.ts` (lines 166-183). -/
def calculateIoU (rectA rectB : Rect) : ℚ :=
  let xA := max rectA.x rectB.x
  let yA := max rectA.y rectB.y
  let xB := min (rectA.x + rectA.width) (rectB.x + rectB.width)
  let yB := min (rectA.y + rectA.height) (rectB.y + rectB.height)
  let interW := max 0 (xB - xA)
  let interH := max 0 (yB - yA)
  if interW ≤ 0 ∨ interH ≤ 0 then 0
  else
    let interArea := interW * interH
    let areaA := rectA.width * rectA.height
    let areaB := rectB.width * rectB.height
    let unionArea := areaA + areaB - interArea
    if 0 < unionArea then interArea / unionArea else 0

/-- Membership of a point in the open interior of a rectangle. -/
def inInterior (R : Rect) (p : ℚ × ℚ) : Prop :=
  R.x < p.1 ∧ p.1 < R.x + R.width ∧ R.y < p.2 ∧ p.2 < R.y + R.height

/-- An RGB triple, the `rgb: number[]` argument of `getHsvRange`. -/
structure Rgb where
  r : ℚ
  g : ℚ
  b : ℚ
  deriving DecidableEq, Repr

/-- The `tolerance` record argument of `getHsvRange`. -/
structure Tolerance where
  h : ℚ
  s : ℚ
  v : ℚ
  deriving DecidableEq, Repr

/-- One HSV(+alpha) bound, one of the 4-element arrays built by `getHsvRange`. -/
structure Hsva where
  h : ℚ
  s : ℚ
  v : ℚ
  a : ℚ
  deriving DecidableEq, Repr

/-- `interface HSVRange` from `src/unnamed/part_001`. -/
structure HSVRange where
  lower : Hsva
  upper : Hsva
  deriving DecidableEq, Repr

/-- JavaScript's `%` operator (`fmod`) for a positive modulus: the result has
the sign of the dividend and is computed by truncating the quotient toward
zero. -/
def jsMod (x y : ℚ) : ℚ :=
  if 0 ≤ x then x - y * (⌊x / y⌋ : ℤ) else -((-x) - y * (⌊(-x) / y⌋ : ℤ))

/-- `getHsvRange` from `src/unnamed/part_001` (lines 34-75): RGB → OpenCV HSV
(h in 0-180, s and v in 0-255) widened by the tolerance and clamped to domain
bounds.  `mx`, `mn` are the source's `max`, `min` locals; the source's final
`else if (max === b)` arm carries a vacuous `else h = 0` (the initial value). -/
def getHsvRange (rgb : Rgb) (tolerance : Tolerance) : HSVRange :=
  let r := rgb.r / 255
  let g := rgb.g / 255
  let b := rgb.b / 255
  let mx := max r (max g b)
  let mn := min r (min g b)
  let delta := mx - mn
  let h0 : ℚ :=
    if delta = 0 then 0
    else if mx = r then 60 * jsMod ((g - b) / delta) 6
    else if mx = g then 60 * ((b - r) / delta + 2)
    else if mx = b then 60 * ((r - g) / delta + 4)
    else 0
  let h := if h0 < 0 then h0 + 360 else h0
  let s := if mx = 0 then 0 else delta / mx
  let v := mx
  let cvH := h / 2
  let cvS := s * 255
  let cvV := v * 255
  { lower := { h := max 0 (cvH - tolerance.h), s := max 0 (cvS - tolerance.s),
               v := max 0 (cvV - tolerance.v), a := 0 },
    upper := { h := min 180 (cvH + tolerance.h), s := min 255 (cvS + tolerance.s),
               v := min 255 (cvV + tolerance.v), a := 255 } }

/-- The normalized spatial box of a `VisionProfile` (`src/unnamed/part_001`). -/
structure NormalizedBox where
  x : ℚ
  y : ℚ
  w : ℚ
  h : ℚ
  deriving DecidableEq, Repr

/-- The `spatial` field of a `VisionProfile`. -/
structure SpatialTemplate where
  normalizedBox : NormalizedBox
  aspectRatio : ℚ
  deriving DecidableEq, Repr

/-- The `bounds` field of a `VisionProfile`. -/
structure ColorBounds where
  dark : HSVRange
  light : HSVRange
  white : HSVRange
  deriving DecidableEq, Repr

/-- `interface VisionProfile` from `src/unnamed/part_001`. -/
structure VisionProfile where
  bounds : ColorBounds
  spatial : SpatialTemplate
  deriving DecidableEq, Repr

/-- A video frame as seen by `scanFrame` (`src/utils/visionDetection.ts`).
`cols`/`rows` are the pixel dimensions; the OpenCV calls are modelled as
oracles attached to the frame: `contoursOf range` gives the bounding
rectangles, in contour-discovery order, of the external contours of the
`cv.inRange` mask for `range` (`cv.findContours` + `cv.boundingRect`), and
`countInRange range roi` gives `cv.countNonZero` of the `range` mask restricted
to the ROI rectangle `roi`. -/
structure FrameModel where
  cols : ℚ
  rows : ℚ
  contoursOf : HSVRange → List Rect
  countInRange : HSVRange → Rect → ℚ

/-- Step 1 of `scanFrame` (lines 47-53): project the profile's normalized box
onto the frame's pixel dimensions with `Math.floor`. -/
def expectedRectOf (frame : FrameModel) (profile : VisionProfile) : Rect :=
  let nb := profile.spatial.normalizedBox
  { x := (⌊nb.x * frame.cols⌋ : ℤ), y := (⌊nb.y * frame.rows⌋ : ℤ),
    width := (⌊nb.w * frame.cols⌋ : ℤ), height := (⌊nb.h * frame.rows⌋ : ℤ) }

/-- The candidate loop of `scanFrame` (lines 73-135): skip contours with
IoU < 0.3 against the expected rectangle (`continue`), otherwise run the triad
check on the contour's bounding-box ROI and stop at the first success
(`detected = true` followed by `break`). -/
def scanLoop (frame : FrameModel) (profile : VisionProfile) (expected : Rect) :
    List Rect → Bool
  | [] => false
  | rect :: rest =>
    if calculateIoU rect expected < 3/10 then scanLoop frame profile expected rest
    else
      let area := rect.width * rect.height
      let lightRatio := frame.countInRange profile.bounds.light rect / area
      let whiteRatio := frame.countInRange profile.bounds.white rect / area
      if 1/100 < lightRatio ∧ 1/100 < whiteRatio then true
      else scanLoop frame profile expected rest

/-- `scanFrame` from `src/utils/visionDetection.ts` (lines 19-160): candidates
are the contours of the background (`dark`) mask. -/
def scanFrame (frame : FrameModel) (profile : VisionProfile) : Bool :=
  scanLoop frame profile (expectedRectOf frame profile)
    (frame.contoursOf profile.bounds.dark)

/-- Hardcoded target color `MENU_DARK` (`src/unnamed/part_001`, line 21). -/
def MENU_DARK : Rgb := { r := 14, g := 4, b := 49 }

/-- Hardcoded target color `MENU_LIGHT` (`src/unnamed/part_001`, line 22). -/
def MENU_LIGHT : Rgb := { r := 50, g := 4, b := 139 }

/-- A connected component of the calibration background mask: its
`cv.contourArea` and `cv.boundingRect`. -/
structure Component where
  area : ℚ
  rect : Rect
  deriving DecidableEq, Repr

/-- The reference image as seen by `calibrateReference`: pixel dimensions plus
the external components (in contour-discovery order) of the `MENU_DARK`
`cv.inRange` mask, which is the only OpenCV output the decision logic reads. -/
structure CalibImage where
  cols : ℚ
  rows : ℚ
  components : List Component
  deriving Repr

/-- The maximum-area loop of `calibrateReference` (lines 140-148): running
state is `(maxArea, bestRect)`, updated on a strict area improvement. -/
def findBest (maxArea : ℚ) (bestRect : Option Rect) : List Component → ℚ × Option Rect
  | [] => (maxArea, bestRect)
  | cnt :: rest =>
    if maxArea < cnt.area then findBest cnt.area (some cnt.rect) rest
    else findBest maxArea bestRect rest

/-- `calibrateReference` from `src/unnamed/part_001` (lines 86-190): the thrown
`Error` is modelled as `Except.error`.  The color bounds reproduce lines
92-104; the area test is `bestRect && maxArea > totalPixels * 0.01`. -/
def calibrateReference (image : CalibImage) : Except String VisionProfile :=
  let darkBounds := getHsvRange MENU_DARK { h := 20, s := 50, v := 50 }
  let lightBounds := getHsvRange MENU_LIGHT { h := 15, s := 50, v := 50 }
  let whiteBounds : HSVRange :=
    { lower := { h := 0, s := 0, v := 200, a := 0 },
      upper := { h := 180, s := 30, v := 255, a := 255 } }
  let totalPixels := image.cols * image.rows
  let fb := findBest 0 none image.components
  match fb.2 with
  | some bestRect =>
    if totalPixels * (1/100) < fb.1 then
      Except.ok
        { bounds := { dark := darkBounds, light := lightBounds, white := whiteBounds },
          spatial :=
            { normalizedBox :=
                { x := bestRect.x / image.cols, y := bestRect.y / image.rows,
                  w := bestRect.width / image.cols, h := bestRect.height / image.rows },
              aspectRatio := bestRect.width / bestRect.height } }
    else
      Except.error "Calibration failed: Could not detect the menu box in the reference image."
  | none =>
    Except.error "Calibration failed: Could not detect the menu box in the reference image."

/-- A point lies in one of the (closed) detection ranges. -/
def coveredByDetections (dets : List DetectionRange) (x : ℚ) : Prop :=
  ∃ d ∈ dets, d.start ≤ x ∧ x ≤ d.«end»

/-- A point lies in one of the (closed) keep ranges. -/
def coveredByKeeps (keeps : List Range) (x : ℚ) : Prop :=
  ∃ k ∈ keeps, k.start ≤ x ∧ x ≤ k.«end»

/-- The point `x` lies in a gap of `[0, D]` of length strictly smaller than
`eps`: an interval `[a, b]` around `x` with `b - a < eps` whose endpoints are
the timeline boundary or covered points. -/
def inGapLT (dets : List DetectionRange) (keeps : List Range) (D eps x : ℚ) : Prop :=
  ∃ a b, 0 ≤ a ∧ a ≤ x ∧ x ≤ b ∧ b ≤ D ∧ b - a < eps ∧
    (a = 0 ∨ coveredByDetections dets a ∨ coveredByKeeps keeps a) ∧
    (b = D ∨ coveredByDetections dets b ∨ coveredByKeeps keeps b)

/-- The point `x` lies in a gap of `[0, D]` of length at most `eps`. -/
def inGapLE (dets : List DetectionRange) (keeps : List Range) (D eps x : ℚ) : Prop :=
  ∃ a b, 0 ≤ a ∧ a ≤ x ∧ x ≤ b ∧ b ≤ D ∧ b - a ≤ eps ∧
    (a = 0 ∨ coveredByDetections dets a ∨ coveredByKeeps keeps a) ∧
    (b = D ∨ coveredByDetections dets b ∨ coveredByKeeps keeps b)

/-- Claim C1 exactly as stated: gaps left uncovered by detections and keep
ranges are strictly smaller than the 0.1 minimum segment length. -/
def RoundTripStrict : Prop :=
  ∀ (D : ℚ) (dets : List DetectionRange), 0 < D →
    (∀ d ∈ dets, 0 ≤ d.start ∧ d.start ≤ d.«end» ∧ d.«end» ≤ D) →
    dets.Pairwise (fun a b => a.start ≤ b.start) →
    dets.Pairwise (fun a b => a.«end» < b.start ∨ b.«end» < a.start) →
    ∀ x, 0 ≤ x → x ≤ D →
      coveredByDetections dets x ∨ coveredByKeeps (getKeepRanges D dets) x ∨
        inGapLT dets (getKeepRanges D dets) D (1/10) x

instance : IsTotal DetectionRange (fun a b => a.start ≤ b.start) :=
  ⟨fun a b => le_total a.start b.start⟩

instance : IsTrans DetectionRange (fun a b => a.start ≤ b.start) :=
  ⟨fun _ _ _ hab hbc => le_trans hab hbc⟩

/-- Claim C2 exactly as stated: for any duration above 0.1 and detections with
`start ≤ end`, the keep ranges are pairwise disjoint as closed intervals,
sorted ascending by start, and each longer than 0.1. -/
def KeepInvariantStrict : Prop :=
  ∀ (D : ℚ) (dets : List DetectionRange), 1/10 < D →
    (∀ d ∈ dets, d.start ≤ d.«end») →
    (getKeepRanges D dets).Pairwise
      (fun k k' => ∀ x : ℚ, ¬(k.start ≤ x ∧ x ≤ k.«end» ∧ k'.start ≤ x ∧ x ≤ k'.«end»)) ∧
    (getKeepRanges D dets).Pairwise (fun k k' => k.start ≤ k'.start) ∧
    ∀ k ∈ getKeepRanges D dets, 1/10 < k.«end» - k.start

/-- Unfolding equation for `sweep` on the empty list. -/
theorem sweep_nil (c : ℚ) : sweep [] c = ([], c) := rfl

/-- Unfolding equation for `sweep` on a cons cell. -/
theorem sweep_cons (d : DetectionRange) (rest : List DetectionRange) (c : ℚ) :
    sweep (d :: rest) c =
      if c + 1/10 < d.start then
        ({ start := c, «end» := d.start } :: (sweep rest (max c d.«end»)).1,
          (sweep rest (max c d.«end»)).2)
      else sweep rest (max c d.«end») := rfl

/-- Claim C10: with a zero (unknown) video duration, `getKeepRanges` returns the
empty list for every detections value, including the empty list. -/
theorem getKeepRanges_zero_duration (detections : List DetectionRange) :
    getKeepRanges 0 detections = [] := by
  simp [getKeepRanges]

/-- Claim C4: inverting the empty detection list against any positive duration
yields the single whole-video range, and inverting the single detection
`{start := 2, end := 4}` against duration 10 yields `[{0, 2}, {4, 10}]`. -/
theorem getKeepRanges_base_cases :
    (∀ D : ℚ, 0 < D → getKeepRanges D [] = [{ start := 0, «end» := D }]) ∧
      getKeepRanges 10 [{ start := 2, «end» := 4, confidence := 1 }] =
        [{ start := 0, «end» := 2 }, { start := 4, «end» := 10 }] := by
  constructor
  · intro D hD
    simp [getKeepRanges, hD.ne']
  · norm_num [getKeepRanges, sweep, List.insertionSort, List.orderedInsert, max_def]

/-- Witness for `getKeepRanges_base_cases` at duration 3. -/
theorem getKeepRanges_base_cases_witness :
    getKeepRanges 3 [] = [{ start := 0, «end» := 3 }] :=
  getKeepRanges_base_cases.1 3 (by norm_num)

/-- Claim C3: in the inversion sweep, a keep range `{cursor, detection.start}` is
emitted for the head detection exactly when `detection.start > cursor + 0.1`;
in particular at exact equality `detection.start = cursor + 0.1` nothing is
emitted for that detection. -/
theorem sweep_emits_iff (c : ℚ) (d : DetectionRange) (rest : List DetectionRange) :
    ((sweep (d :: rest) c).1 =
        { start := c, «end» := d.start } :: (sweep rest (max c d.«end»)).1 ↔
      c + 1/10 < d.start) ∧
    (d.start = c + 1/10 →
      (sweep (d :: rest) c).1 = (sweep rest (max c d.«end»)).1) := by
  constructor
  · constructor
    · intro h
      by_contra hlt
      rw [sweep_cons, if_neg hlt] at h
      exact (List.cons_ne_self _ _ h.symm).elim
    · intro h
      rw [sweep_cons, if_pos h]
  · intro h
    have hlt : ¬ c + 1/10 < d.start := by rw [h]; exact lt_irrefl _
    rw [sweep_cons, if_neg hlt]

/-- Witness for `sweep_emits_iff`, at the exact-equality boundary
`detection.start = cursor + 0.1`: no keep range is emitted. -/
theorem sweep_emits_iff_witness :
    (sweep [{ start := 1/10, «end» := 5, confidence := 1 }] 0).1 =
      (sweep [] (max 0 (5 : ℚ))).1 :=
  (sweep_emits_iff 0 { start := 1/10, «end» := 5, confidence := 1 } []).2 (by norm_num)

/-- Claim C5: clustering the empty list yields `[]`; clustering `[t]` yields the
single zero-length range `{t, t, 1.0}`; and clustering `[1.0, 1.3, 1.6, 5.0]`
with tolerance 0.5 yields `[{1.0, 1.6}, {5.0, 5.0}]` — gaps above the tolerance
split, gaps at or below it merge. -/
theorem processDetections_cases :
    processDetections [] = [] ∧
    (∀ t : ℚ, processDetections [t] = [{ start := t, «end» := t, confidence := 1 }]) ∧
    processDetections [1, 13/10, 8/5, 5] =
      [{ start := 1, «end» := 8/5, confidence := 1 },
       { start := 5, «end» := 5, confidence := 1 }] := by
  refine ⟨rfl, fun t => rfl, ?_⟩
  norm_num [processDetections, clusterLoop, List.insertionSort, List.orderedInsert]

/-- Claim C9: IoU of a rectangle with positive width and height against itself
is 1; IoU of two rectangles whose interiors share no point is 0; and IoU is
symmetric in its two arguments. -/
theorem calculateIoU_properties :
    (∀ A : Rect, 0 < A.width → 0 < A.height → calculateIoU A A = 1) ∧
    (∀ A B : Rect, (¬ ∃ p : ℚ × ℚ, inInterior A p ∧ inInterior B p) →
      calculateIoU A B = 0) ∧
    (∀ A B : Rect, calculateIoU A B = calculateIoU B A) := by
  refine ⟨?_, ?_, ?_⟩
  · intro A hw hh
    have harea : 0 < A.width * A.height := mul_pos hw hh
    simp only [calculateIoU, max_self, min_self, add_sub_cancel_left]
    rw [max_eq_right hw.le, max_eq_right hh.le]
    rw [if_neg (by push_neg; exact ⟨hw, hh⟩)]
    rw [if_pos (by linarith)]
    rw [show A.width * A.height + A.width * A.height - A.width * A.height =
      A.width * A.height from by ring]
    exact div_self harea.ne'
  · intro A B hno
    have hkey : min (A.x + A.width) (B.x + B.width) ≤ max A.x B.x ∨
        min (A.y + A.height) (B.y + B.height) ≤ max A.y B.y := by
      by_contra hc
      push_neg at hc
      obtain ⟨hx, hy⟩ := hc
      obtain ⟨tx, htx1, htx2⟩ := exists_between hx
      obtain ⟨ty, hty1, hty2⟩ := exists_between hy
      refine hno ⟨(tx, ty), ⟨?_, ?_, ?_, ?_⟩, ?_, ?_, ?_, ?_⟩
      · exact lt_of_le_of_lt (le_max_left _ _) htx1
      · exact lt_of_lt_of_le htx2 (min_le_left _ _)
      · exact lt_of_le_of_lt (le_max_left _ _) hty1
      · exact lt_of_lt_of_le hty2 (min_le_left _ _)
      · exact lt_of_le_of_lt (le_max_right _ _) htx1
      · exact lt_of_lt_of_le htx2 (min_le_right _ _)
      · exact lt_of_le_of_lt (le_max_right _ _) hty1
      · exact lt_of_lt_of_le hty2 (min_le_right _ _)
    simp only [calculateIoU]
    rw [if_pos]
    rcases hkey with h | h
    · left
      simp only [max_le_iff, le_refl, true_and]
      linarith
    · right
      simp only [max_le_iff, le_refl, true_and]
      linarith
  · intro A B
    simp only [calculateIoU, max_comm A.x B.x, max_comm A.y B.y,
      min_comm (A.x + A.width) (B.x + B.width),
      min_comm (A.y + A.height) (B.y + B.height),
      add_comm (A.width * A.height) (B.width * B.height)]

/-- Witness for `calculateIoU_properties`: the unit square has IoU 1 with
itself and IoU 0 with a translated disjoint copy. -/
theorem calculateIoU_properties_witness :
    calculateIoU { x := 0, y := 0, width := 1, height := 1 }
        { x := 0, y := 0, width := 1, height := 1 } = 1 ∧
    calculateIoU { x := 0, y := 0, width := 1, height := 1 }
        { x := 5, y := 5, width := 1, height := 1 } = 0 :=
  ⟨calculateIoU_properties.1 _ (by norm_num) (by norm_num),
   calculateIoU_properties.2.1 _ _ (by
    rintro ⟨p, hA, hB⟩
    rcases hA with ⟨_, h2, _, _⟩
    rcases hB with ⟨h5, _, _, _⟩
    norm_num at h2 h5
    linarith)⟩

/-- For `|x| ≤ 1` the JavaScript remainder `x % 6` is `x` itself. -/
theorem jsMod_six_of_abs_le_one {x : ℚ} (h1 : -1 ≤ x) (h2 : x ≤ 1) :
    jsMod x 6 = x := by
  unfold jsMod
  rcases le_or_lt 0 x with hx | hx
  · rw [if_pos hx]
    have hfl : ⌊x / 6⌋ = 0 := by
      rw [Int.floor_eq_zero_iff]
      constructor
      · positivity
      · rw [div_lt_one (by norm_num)]
        linarith
    rw [hfl]
    push_cast
    ring
  · rw [if_neg (not_le.mpr hx)]
    have hfl : ⌊(-x) / 6⌋ = 0 := by
      rw [Int.floor_eq_zero_iff]
      constructor
      · have : 0 ≤ -x := by linarith
        positivity
      · rw [div_lt_one (by norm_num)]
        linarith
    rw [hfl]
    push_cast
    ring

set_option maxHeartbeats 1000000 in
/-- Claim C8: for channel values in 0-255 and nonnegative tolerances, the range
built by `getHsvRange` has `lower.h ≤ upper.h`, hue bounds inside `[0, 180]`,
and saturation and value bounds inside `[0, 255]`. -/
theorem getHsvRange_bounds (rgb : Rgb) (tol : Tolerance)
    (hrgb : 0 ≤ rgb.r ∧ rgb.r ≤ 255 ∧ 0 ≤ rgb.g ∧ rgb.g ≤ 255 ∧ 0 ≤ rgb.b ∧ rgb.b ≤ 255)
    (htol : 0 ≤ tol.h ∧ 0 ≤ tol.s ∧ 0 ≤ tol.v) :
    (getHsvRange rgb tol).lower.h ≤ (getHsvRange rgb tol).upper.h ∧
    0 ≤ (getHsvRange rgb tol).lower.h ∧ (getHsvRange rgb tol).lower.h ≤ 180 ∧
    0 ≤ (getHsvRange rgb tol).upper.h ∧ (getHsvRange rgb tol).upper.h ≤ 180 ∧
    0 ≤ (getHsvRange rgb tol).lower.s ∧ (getHsvRange rgb tol).lower.s ≤ 255 ∧
    0 ≤ (getHsvRange rgb tol).upper.s ∧ (getHsvRange rgb tol).upper.s ≤ 255 ∧
    0 ≤ (getHsvRange rgb tol).lower.v ∧ (getHsvRange rgb tol).lower.v ≤ 255 ∧
    0 ≤ (getHsvRange rgb tol).upper.v ∧ (getHsvRange rgb tol).upper.v ≤ 255 := by
  obtain ⟨hr0, hr1, hg0, hg1, hb0, hb1⟩ := hrgb
  obtain ⟨hth, hts, htv⟩ := htol
  set r := rgb.r / 255 with hr_def
  set g := rgb.g / 255 with hg_def
  set b := rgb.b / 255 with hb_def
  set mx := max r (max g b) with hmx_def
  set mn := min r (min g b) with hmn_def
  set delta := mx - mn with hdelta_def
  set h0 := (if delta = 0 then (0 : ℚ)
    else if mx = r then 60 * jsMod ((g - b) / delta) 6
    else if mx = g then 60 * ((b - r) / delta + 2)
    else if mx = b then 60 * ((r - g) / delta + 4)
    else 0) with hh0_def
  set hq := (if h0 < 0 then h0 + 360 else h0) with hhq_def
  set sq := (if mx = 0 then (0 : ℚ) else delta / mx) with hsq_def
  set cvH := hq / 2 with hcvH_def
  set cvS := sq * 255 with hcvS_def
  set cvV := mx * 255 with hcvV_def
  have hunfold : getHsvRange rgb tol =
      { lower := { h := max 0 (cvH - tol.h), s := max 0 (cvS - tol.s),
                   v := max 0 (cvV - tol.v), a := 0 },
        upper := { h := min 180 (cvH + tol.h), s := min 255 (cvS + tol.s),
                   v := min 255 (cvV + tol.v), a := 255 } } := rfl
  rw [hunfold]
  dsimp only
  have hr01 : 0 ≤ r ∧ r ≤ 1 :=
    ⟨div_nonneg hr0 (by norm_num), (div_le_one (by norm_num)).mpr hr1⟩
  have hg01 : 0 ≤ g ∧ g ≤ 1 :=
    ⟨div_nonneg hg0 (by norm_num), (div_le_one (by norm_num)).mpr hg1⟩
  have hb01 : 0 ≤ b ∧ b ≤ 1 :=
    ⟨div_nonneg hb0 (by norm_num), (div_le_one (by norm_num)).mpr hb1⟩
  have hrmx : r ≤ mx := le_max_left _ _
  have hgmx : g ≤ mx := le_trans (le_max_left _ _) (le_max_right _ _)
  have hbmx : b ≤ mx := le_trans (le_max_right _ _) (le_max_right _ _)
  have hmnr : mn ≤ r := min_le_left _ _
  have hmng : mn ≤ g := le_trans (min_le_right _ _) (min_le_left _ _)
  have hmnb : mn ≤ b := le_trans (min_le_right _ _) (min_le_right _ _)
  have hmx0 : 0 ≤ mx := le_trans hr01.1 hrmx
  have hmx1 : mx ≤ 1 := max_le hr01.2 (max_le hg01.2 hb01.2)
  have hmn0 : 0 ≤ mn := le_min hr01.1 (le_min hg01.1 hb01.1)
  have hmnmx : mn ≤ mx := le_trans hmnr hrmx
  have hd0 : 0 ≤ delta := sub_nonneg.mpr hmnmx
  have hdmx : delta ≤ mx := by rw [hdelta_def]; linarith
  have hh0B : -60 ≤ h0 ∧ h0 ≤ 300 := by
    rw [hh0_def]
    by_cases hd : delta = 0
    · rw [if_pos hd]; norm_num
    · rw [if_neg hd]
      have hdpos : 0 < delta := lt_of_le_of_ne hd0 (Ne.symm hd)
      by_cases hmr : mx = r
      · rw [if_pos hmr]
        have q1 : (g - b) / delta ≤ 1 := by
          rw [div_le_one hdpos, hdelta_def]
          have hgm : g ≤ mx := hgmx
          linarith
        have q2 : -1 ≤ (g - b) / delta := by
          rw [le_div_iff₀ hdpos, hdelta_def]
          linarith
        rw [jsMod_six_of_abs_le_one q2 q1]
        constructor <;> linarith
      · rw [if_neg hmr]
        by_cases hmg : mx = g
        · rw [if_pos hmg]
          have q1 : (b - r) / delta ≤ 1 := by
            rw [div_le_one hdpos, hdelta_def]
            linarith
          have q2 : -1 ≤ (b - r) / delta := by
            rw [le_div_iff₀ hdpos, hdelta_def]
            linarith
          constructor <;> linarith
        · rw [if_neg hmg]
          by_cases hmb : mx = b
          · rw [if_pos hmb]
            have q1 : (r - g) / delta ≤ 1 := by
              rw [div_le_one hdpos, hdelta_def]
              linarith
            have q2 : -1 ≤ (r - g) / delta := by
              rw [le_div_iff₀ hdpos, hdelta_def]
              linarith
            constructor <;> linarith
          · rw [if_neg hmb]; norm_num
  have hhB : 0 ≤ hq ∧ hq ≤ 360 := by
    rw [hhq_def]
    by_cases hneg : h0 < 0
    · rw [if_pos hneg]
      constructor <;> linarith [hh0B.1, hh0B.2]
    · rw [if_neg hneg]
      push_neg at hneg
      exact ⟨hneg, by linarith [hh0B.2]⟩
  have hcvHB : 0 ≤ cvH ∧ cvH ≤ 180 := by
    rw [hcvH_def]
    constructor <;> linarith [hhB.1, hhB.2]
  have hsB : 0 ≤ sq ∧ sq ≤ 1 := by
    rw [hsq_def]
    by_cases hmx : mx = 0
    · rw [if_pos hmx]; norm_num
    · rw [if_neg hmx]
      have hmxpos : 0 < mx := lt_of_le_of_ne hmx0 (Ne.symm hmx)
      exact ⟨div_nonneg hd0 hmx0, (div_le_one hmxpos).mpr hdmx⟩
  have hcvSB : 0 ≤ cvS ∧ cvS ≤ 255 := by
    rw [hcvS_def]
    constructor <;> linarith [hsB.1, hsB.2]
  have hcvVB : 0 ≤ cvV ∧ cvV ≤ 255 := by
    rw [hcvV_def]
    constructor <;> linarith [hmx0, hmx1]
  refine ⟨le_trans (max_le hcvHB.1 (by linarith)) (le_min hcvHB.2 (by linarith)),
    le_max_left 0 _, max_le (by norm_num) (by linarith [hcvHB.2]),
    le_min (by norm_num) (by linarith [hcvHB.1]), min_le_left _ _,
    le_max_left 0 _, max_le (by norm_num) (by linarith [hcvSB.2]),
    le_min (by norm_num) (by linarith [hcvSB.1]), min_le_left _ _,
    le_max_left 0 _, max_le (by norm_num) (by linarith [hcvVB.2]),
    le_min (by norm_num) (by linarith [hcvVB.1]), min_le_left _ _⟩

/-- Witness for `getHsvRange_bounds` at the hardcoded dark-purple target color
with the wide calibration tolerance. -/
theorem getHsvRange_bounds_witness :
    (getHsvRange { r := 14, g := 4, b := 49 } { h := 20, s := 50, v := 50 }).lower.h ≤
      (getHsvRange { r := 14, g := 4, b := 49 } { h := 20, s := 50, v := 50 }).upper.h :=
  (getHsvRange_bounds { r := 14, g := 4, b := 49 } { h := 20, s := 50, v := 50 }
    (by norm_num) (by norm_num)).1

/-- Unfolding equation for `scanLoop` on a cons cell. -/
theorem scanLoop_cons (frame : FrameModel) (profile : VisionProfile) (expected : Rect)
    (rect : Rect) (rest : List Rect) :
    scanLoop frame profile expected (rect :: rest) =
      if calculateIoU rect expected < 3/10 then scanLoop frame profile expected rest
      else
        if 1/100 < frame.countInRange profile.bounds.light rect /
              (rect.width * rect.height) ∧
            1/100 < frame.countInRange profile.bounds.white rect /
              (rect.width * rect.height) then true
        else scanLoop frame profile expected rest := rfl

/-- Claim C6: `scanFrame` returns `true` exactly when some background-mask
contour has IoU at least 0.3 with the projected expected rectangle and, within
that contour's bounding-box ROI, the accent-color pixel fraction and the
text-color pixel fraction both exceed 0.01. -/
theorem scanFrame_accepts_iff (frame : FrameModel) (profile : VisionProfile) :
    scanFrame frame profile = true ↔
      ∃ rect ∈ frame.contoursOf profile.bounds.dark,
        3/10 ≤ calculateIoU rect (expectedRectOf frame profile) ∧
        1/100 < frame.countInRange profile.bounds.light rect /
          (rect.width * rect.height) ∧
        1/100 < frame.countInRange profile.bounds.white rect /
          (rect.width * rect.height) := by
  unfold scanFrame
  induction frame.contoursOf profile.bounds.dark with
  | nil =>
    constructor
    · intro h
      exact absurd h (by rw [show scanLoop frame profile (expectedRectOf frame profile) [] =
        false from rfl]; simp)
    · rintro ⟨r, hr, _⟩
      exact absurd hr (List.not_mem_nil r)
  | cons rect rest ih =>
    by_cases hiou : calculateIoU rect (expectedRectOf frame profile) < 3/10
    · rw [scanLoop_cons, if_pos hiou, ih]
      constructor
      · rintro ⟨r, hr, hprops⟩
        exact ⟨r, List.mem_cons_of_mem _ hr, hprops⟩
      · rintro ⟨r, hr, hprops⟩
        rcases List.mem_cons.mp hr with rfl | hr
        · exact absurd hprops.1 (not_le.mpr hiou)
        · exact ⟨r, hr, hprops⟩
    · by_cases htriad :
          1/100 < frame.countInRange profile.bounds.light rect /
            (rect.width * rect.height) ∧
          1/100 < frame.countInRange profile.bounds.white rect /
            (rect.width * rect.height)
      · rw [scanLoop_cons, if_neg hiou, if_pos htriad]
        simp only [true_iff]
        exact ⟨rect, List.mem_cons_self _ _, not_lt.mp hiou, htriad⟩
      · rw [scanLoop_cons, if_neg hiou, if_neg htriad, ih]
        constructor
        · rintro ⟨r, hr, hprops⟩
          exact ⟨r, List.mem_cons_of_mem _ hr, hprops⟩
        · rintro ⟨r, hr, hprops⟩
          rcases List.mem_cons.mp hr with rfl | hr
          · exact absurd ⟨hprops.2.1, hprops.2.2⟩ htriad
          · exact ⟨r, hr, hprops⟩

/-- Invariants of the `findBest` loop: the running maximum only grows, bounds
every visited area, and the final state is either the initial one or comes
from a visited component. -/
theorem findBest_spec (l : List Component) (m : ℚ) (best : Option Rect) :
    m ≤ (findBest m best l).1 ∧
    (∀ c ∈ l, c.area ≤ (findBest m best l).1) ∧
    (findBest m best l = (m, best) ∨
      ∃ c ∈ l, (findBest m best l).1 = c.area ∧ (findBest m best l).2 = some c.rect) := by
  induction l generalizing m best with
  | nil => exact ⟨le_refl _, fun c hc => absurd hc (List.not_mem_nil c), Or.inl rfl⟩
  | cons cnt rest ih =>
    by_cases hlt : m < cnt.area
    · have heq : findBest m best (cnt :: rest) = findBest cnt.area (some cnt.rect) rest := by
        rw [show findBest m best (cnt :: rest) =
          if m < cnt.area then findBest cnt.area (some cnt.rect) rest
          else findBest m best rest from rfl, if_pos hlt]
      obtain ⟨h1, h2, h3⟩ := ih cnt.area (some cnt.rect)
      refine ⟨heq ▸ le_trans hlt.le h1, ?_, ?_⟩
      · intro c hc
        rcases List.mem_cons.mp hc with rfl | hc
        · exact heq ▸ h1
        · exact heq ▸ h2 c hc
      · rcases h3 with h3 | ⟨c, hc, hc1, hc2⟩
        · right
          refine ⟨cnt, List.mem_cons_self _ _, ?_, ?_⟩
          · rw [heq, h3]
          · rw [heq, h3]
        · right
          exact ⟨c, List.mem_cons_of_mem _ hc, heq ▸ hc1, heq ▸ hc2⟩
    · have heq : findBest m best (cnt :: rest) = findBest m best rest := by
        rw [show findBest m best (cnt :: rest) =
          if m < cnt.area then findBest cnt.area (some cnt.rect) rest
          else findBest m best rest from rfl, if_neg hlt]
      obtain ⟨h1, h2, h3⟩ := ih m best
      refine ⟨heq ▸ h1, ?_, ?_⟩
      · intro c hc
        rcases List.mem_cons.mp hc with rfl | hc
        · exact le_trans (not_lt.mp hlt) (heq ▸ h1)
        · exact heq ▸ h2 c hc
      · rcases h3 with h3 | ⟨c, hc, hc1, hc2⟩
        · exact Or.inl (heq ▸ h3)
        · exact Or.inr ⟨c, List.mem_cons_of_mem _ hc, heq ▸ hc1, heq ▸ hc2⟩

/-- Unfolding equation for `calibrateReference` when the loop found no
best rectangle. -/
theorem calibrateReference_none (image : CalibImage)
    (h : (findBest 0 none image.components).2 = none) :
    calibrateReference image =
      Except.error
        "Calibration failed: Could not detect the menu box in the reference image." := by
  simp only [calibrateReference]
  rw [h]

/-- Unfolding equation for `calibrateReference` when the loop found a best
rectangle. -/
theorem calibrateReference_some (image : CalibImage) (bestRect : Rect)
    (h : (findBest 0 none image.components).2 = some bestRect) :
    calibrateReference image =
      if image.cols * image.rows * (1/100) < (findBest 0 none image.components).1 then
        Except.ok
          { bounds :=
              { dark := getHsvRange MENU_DARK { h := 20, s := 50, v := 50 },
                light := getHsvRange MENU_LIGHT { h := 15, s := 50, v := 50 },
                white :=
                  { lower := { h := 0, s := 0, v := 200, a := 0 },
                    upper := { h := 180, s := 30, v := 255, a := 255 } } },
            spatial :=
              { normalizedBox :=
                  { x := bestRect.x / image.cols, y := bestRect.y / image.rows,
                    w := bestRect.width / image.cols, h := bestRect.height / image.rows },
                aspectRatio := bestRect.width / bestRect.height } }
      else
        Except.error
          "Calibration failed: Could not detect the menu box in the reference image." := by
  simp only [calibrateReference]
  rw [h]

/-- Claim C7: with positive image dimensions, `calibrateReference` fails with
the calibration error exactly when no mask component's area exceeds 1% of the
total pixel count; on success the returned profile's normalized box is the
maximum-area component's bounding box divided by the image width and height. -/
theorem calibrateReference_spec (image : CalibImage)
    (hcols : 0 < image.cols) (hrows : 0 < image.rows) :
    ((∃ msg, calibrateReference image = Except.error msg) ↔
      ¬ ∃ c ∈ image.components, image.cols * image.rows * (1/100) < c.area) ∧
    (∀ p, calibrateReference image = Except.ok p →
      ∃ c ∈ image.components, (∀ c' ∈ image.components, c'.area ≤ c.area) ∧
        p.spatial.normalizedBox =
          { x := c.rect.x / image.cols, y := c.rect.y / image.rows,
            w := c.rect.width / image.cols, h := c.rect.height / image.rows }) := by
  obtain ⟨hmono, hbound, hfrom⟩ := findBest_spec image.components 0 none
  constructor
  · constructor
    · rintro ⟨msg, hmsg⟩ ⟨c, hc, hcarea⟩
      have h1 : image.cols * image.rows * (1/100) < (findBest 0 none image.components).1 :=
        lt_of_lt_of_le hcarea (hbound c hc)
      cases h2 : (findBest 0 none image.components).2 with
      | none =>
        rcases hfrom with h3 | ⟨c', hc', hc1', hc2'⟩
        · have h4 : (findBest 0 none image.components).1 = 0 := by rw [h3]
          rw [h4] at h1
          have hT : 0 < image.cols * image.rows * (1/100) := by positivity
          linarith
        · rw [hc2'] at h2
          exact Option.noConfusion h2
      | some bestRect =>
        rw [calibrateReference_some image bestRect h2, if_pos h1] at hmsg
        exact Except.noConfusion hmsg
    · intro hno
      cases h2 : (findBest 0 none image.components).2 with
      | none => exact ⟨_, calibrateReference_none image h2⟩
      | some bestRect =>
        have harea : ¬ image.cols * image.rows * (1/100) <
            (findBest 0 none image.components).1 := by
          rcases hfrom with h3 | ⟨c, hc, hc1, _⟩
          · rw [h3] at h2
            exact Option.noConfusion h2
          · rw [hc1]
            intro hlt
            exact hno ⟨c, hc, hlt⟩
        rw [calibrateReference_some image bestRect h2, if_neg harea]
        exact ⟨_, rfl⟩
  · intro p hp
    cases h2 : (findBest 0 none image.components).2 with
    | none =>
      rw [calibrateReference_none image h2] at hp
      exact Except.noConfusion hp
    | some bestRect =>
      by_cases harea : image.cols * image.rows * (1/100) <
          (findBest 0 none image.components).1
      · rw [calibrateReference_some image bestRect h2, if_pos harea] at hp
        injection hp with hpeq
        rcases hfrom with h3 | ⟨c, hc, hc1, hc2⟩
        · rw [h3] at h2
          exact Option.noConfusion h2
        · rw [hc2] at h2
          injection h2 with h2eq
          refine ⟨c, hc, fun c' hc' => le_trans (hbound c' hc') (le_of_eq hc1), ?_⟩
          rw [← hpeq, ← h2eq]
      · rw [calibrateReference_some image bestRect h2, if_neg harea] at hp
        exact Except.noConfusion hp

/-- Witness for `calibrateReference_spec` on a 10x10 image with a single
component of area 5 (threshold 1). -/
theorem calibrateReference_spec_witness :
    (∃ msg, calibrateReference
        { cols := 10, rows := 10,
          components :=
            [{ area := 5, rect := { x := 1, y := 2, width := 3, height := 4 } }] } =
      Except.error msg) ↔
      ¬ ∃ c ∈ [({ area := 5, rect := { x := 1, y := 2, width := 3, height := 4 } } : Component)],
        (10 : ℚ) * 10 * (1/100) < c.area :=
  (calibrateReference_spec
    { cols := 10, rows := 10,
      components := [{ area := 5, rect := { x := 1, y := 2, width := 3, height := 4 } }] }
    (by norm_num) (by norm_num)).1

/-- The cursor of the sweep only advances, and its final value is either the
initial cursor or the end of some processed detection. -/
theorem sweep_cursor (dets : List DetectionRange) (c : ℚ) :
    c ≤ (sweep dets c).2 ∧
      ((sweep dets c).2 = c ∨ ∃ d ∈ dets, (sweep dets c).2 = d.«end») := by
  induction dets generalizing c with
  | nil => exact ⟨le_refl _, Or.inl rfl⟩
  | cons d rest ih =>
    have hsnd : (sweep (d :: rest) c).2 = (sweep rest (max c d.«end»)).2 := by
      rw [sweep_cons]
      split
      · rfl
      · rfl
    obtain ⟨h1, h2⟩ := ih (max c d.«end»)
    constructor
    · rw [hsnd]
      exact le_trans (le_max_left _ _) h1
    · rw [hsnd]
      rcases h2 with h2 | ⟨d', hd', he⟩
      · rcases max_cases c d.«end» with ⟨hmax, _⟩ | ⟨hmax, _⟩
        · left
          rw [h2, hmax]
        · right
          exact ⟨d, List.mem_cons_self _ _, by rw [h2, hmax]⟩
      · right
        exact ⟨d', List.mem_cons_of_mem _ hd', he⟩

/-- Helper: the second component of the sweep ignores the emission decision. -/
theorem sweep_snd (d : DetectionRange) (rest : List DetectionRange) (c : ℚ) :
    (sweep (d :: rest) c).2 = (sweep rest (max c d.«end»)).2 := by
  rw [sweep_cons]
  split
  · rfl
  · rfl

/-- Helper: keeps emitted by the tail of the sweep are keeps of the whole
sweep. -/
theorem sweep_mem_of_tail (d : DetectionRange) (rest : List DetectionRange) (c : ℚ)
    {k : Range} (hk : k ∈ (sweep rest (max c d.«end»)).1) :
    k ∈ (sweep (d :: rest) c).1 := by
  rw [sweep_cons]
  split
  · exact List.mem_cons_of_mem _ hk
  · exact hk

/-- Structure of the keeps emitted by the sweep: they form an ascending
non-overlapping chain, each starts at or after the initial cursor, is longer
than 0.1, and ends by the final cursor. -/
theorem sweep_keeps_spec (dets : List DetectionRange) (c : ℚ)
    (hse : ∀ d ∈ dets, d.start ≤ d.«end») :
    (sweep dets c).1.Pairwise (fun k k' => k.«end» ≤ k'.start) ∧
      ∀ k ∈ (sweep dets c).1,
        c ≤ k.start ∧ k.start + 1/10 < k.«end» ∧ k.«end» ≤ (sweep dets c).2 := by
  induction dets generalizing c with
  | nil => exact ⟨List.Pairwise.nil, fun k hk => absurd hk (List.not_mem_nil k)⟩
  | cons d rest ih =>
    obtain ⟨hpw, hmem⟩ :=
      ih (max c d.«end») (fun d' hd' => hse d' (List.mem_cons_of_mem _ hd'))
    have hsnd := sweep_snd d rest c
    have hdse : d.start ≤ d.«end» := hse d (List.mem_cons_self _ _)
    by_cases hemit : c + 1/10 < d.start
    · have heq : (sweep (d :: rest) c).1 =
          { start := c, «end» := d.start } :: (sweep rest (max c d.«end»)).1 := by
        rw [sweep_cons, if_pos hemit]
      rw [heq, hsnd]
      constructor
      · rw [List.pairwise_cons]
        refine ⟨fun k hk => ?_, hpw⟩
        exact le_trans (le_trans hdse (le_max_right _ _)) (hmem k hk).1
      · intro k hk
        rcases List.mem_cons.mp hk with rfl | hk
        · refine ⟨le_refl _, hemit, ?_⟩
          exact le_trans (le_trans hdse (le_max_right _ _))
            (sweep_cursor rest (max c d.«end»)).1
        · obtain ⟨h1, h2, h3⟩ := hmem k hk
          exact ⟨le_trans (le_max_left _ _) h1, h2, h3⟩
    · have heq : (sweep (d :: rest) c).1 = (sweep rest (max c d.«end»)).1 := by
        rw [sweep_cons, if_neg hemit]
      rw [heq, hsnd]
      refine ⟨hpw, fun k hk => ?_⟩
      obtain ⟨h1, h2, h3⟩ := hmem k hk
      exact ⟨le_trans (le_max_left _ _) h1, h2, h3⟩

/-- Coverage of the sweep: every point between the initial and final cursor is
covered by a detection, covered by an emitted keep, or sits in a gap of length
at most 0.1 whose endpoints are the initial cursor or covered by detections. -/
theorem sweep_covers (dets : List DetectionRange) (c x : ℚ)
    (hne : dets ≠ [])
    (hse : ∀ d ∈ dets, d.start ≤ d.«end»)
    (hstart : ∀ d ∈ dets, c ≤ d.start)
    (hchain : dets.Pairwise (fun a b => a.«end» < b.start))
    (hcx : c ≤ x) (hxf : x ≤ (sweep dets c).2) :
    coveredByDetections dets x ∨ coveredByKeeps (sweep dets c).1 x ∨
      ∃ a b, c ≤ a ∧ a ≤ x ∧ x ≤ b ∧ b - a ≤ 1/10 ∧
        (a = c ∨ coveredByDetections dets a) ∧ coveredByDetections dets b := by
  induction dets generalizing c with
  | nil => exact absurd rfl hne
  | cons d rest ih =>
    have hsnd := sweep_snd d rest c
    have hdse : d.start ≤ d.«end» := hse d (List.mem_cons_self _ _)
    have hds : c ≤ d.start := hstart d (List.mem_cons_self _ _)
    by_cases hx : x ≤ max c d.«end»
    · by_cases hxc : x ≤ c
      · have hxeq : x = c := le_antisymm hxc hcx
        by_cases hemit : c + 1/10 < d.start
        · right
          left
          refine ⟨{ start := c, «end» := d.start }, ?_, hcx, ?_⟩
          · rw [sweep_cons, if_pos hemit]
            exact List.mem_cons_self _ _
          · rw [hxeq]
            exact hds
        · right
          right
          refine ⟨c, d.start, le_refl _, hcx, ?_, by linarith [not_lt.mp hemit],
            Or.inl rfl, d, List.mem_cons_self _ _, le_refl _, hdse⟩
          rw [hxeq]
          exact hds
      · push_neg at hxc
        have hxde : x ≤ d.«end» := by
          rcases max_cases c d.«end» with ⟨hm, _⟩ | ⟨hm, _⟩
          · rw [hm] at hx
            linarith
          · rw [hm] at hx
            exact hx
        by_cases hxd : d.start ≤ x
        · exact Or.inl ⟨d, List.mem_cons_self _ _, hxd, hxde⟩
        · push_neg at hxd
          by_cases hemit : c + 1/10 < d.start
          · right
            left
            refine ⟨{ start := c, «end» := d.start }, ?_, hcx, hxd.le⟩
            rw [sweep_cons, if_pos hemit]
            exact List.mem_cons_self _ _
          · right
            right
            exact ⟨c, d.start, le_refl _, hcx, hxd.le, by linarith [not_lt.mp hemit],
              Or.inl rfl, d, List.mem_cons_self _ _, le_refl _, hdse⟩
    · push_neg at hx
      cases rest with
      | nil =>
        exfalso
        rw [hsnd] at hxf
        rw [show (sweep [] (max c d.«end»)).2 = max c d.«end» from rfl] at hxf
        linarith
      | cons e rest' =>
        have hstep := ih (max c d.«end») (List.cons_ne_nil _ _)
          (fun d' hd' => hse d' (List.mem_cons_of_mem _ hd'))
          (fun d' hd' => max_le (hstart d' (List.mem_cons_of_mem _ hd'))
            (le_of_lt (List.rel_of_pairwise_cons hchain hd')))
          (List.pairwise_cons.mp hchain).2
          hx.le (by rw [← hsnd]; exact hxf)
        rcases hstep with hcov | hcov | ⟨a, b, ha1, ha2, ha3, ha4, ha5, ha6⟩
        · left
          rcases hcov with ⟨d', hd', hp⟩
          exact ⟨d', List.mem_cons_of_mem _ hd', hp⟩
        · right
          left
          rcases hcov with ⟨k, hk, hp⟩
          exact ⟨k, sweep_mem_of_tail d _ c hk, hp⟩
        · right
          right
          refine ⟨a, b, le_trans (le_max_left _ _) ha1, ha2, ha3, ha4, ?_, ?_⟩
          · rcases ha5 with rfl | hcov
            · rcases max_cases c d.«end» with ⟨hm, _⟩ | ⟨hm, hcd⟩
              · left
                exact hm
              · right
                exact ⟨d, List.mem_cons_self _ _, by rw [hm]; exact hdse, le_of_eq hm⟩
            · rcases hcov with ⟨d', hd', hp⟩
              exact Or.inr ⟨d', List.mem_cons_of_mem _ hd', hp⟩
          · rcases ha6 with ⟨d', hd', hp⟩
            exact ⟨d', List.mem_cons_of_mem _ hd', hp⟩

/-- Unfolding equation of `getKeepRanges` for a nonzero duration and a
nonempty detection list. -/
theorem getKeepRanges_eq (D : ℚ) (dets : List DetectionRange)
    (hD : D ≠ 0) (hne : dets ≠ []) :
    getKeepRanges D dets =
      (if (sweep (List.insertionSort (fun a b => a.start ≤ b.start) dets) 0).2 < D - 1/10
      then (sweep (List.insertionSort (fun a b => a.start ≤ b.start) dets) 0).1 ++
        [{ start := (sweep (List.insertionSort (fun a b => a.start ≤ b.start) dets) 0).2,
           «end» := D }]
      else (sweep (List.insertionSort (fun a b => a.start ≤ b.start) dets) 0).1) := by
  simp only [getKeepRanges]
  rw [if_neg hD, if_neg hne]

/-- Claim C1 (amended): for a positive duration and a sorted, pairwise
disjoint detection list contained in `[0, D]`, every point of `[0, D]` is
covered by a detection, covered by a keep range of `getKeepRanges`, or lies
in a gap of length at most the 0.1 minimum segment (the bound is attained, so
`at most`, not `strictly smaller than`). -/
theorem roundTrip_amended (D : ℚ) (dets : List DetectionRange) (hD : 0 < D)
    (hin : ∀ d ∈ dets, 0 ≤ d.start ∧ d.start ≤ d.«end» ∧ d.«end» ≤ D)
    (hsorted : dets.Pairwise (fun a b => a.start ≤ b.start))
    (hdisj : dets.Pairwise (fun a b => a.«end» < b.start ∨ b.«end» < a.start))
    (x : ℚ) (hx0 : 0 ≤ x) (hxD : x ≤ D) :
    coveredByDetections dets x ∨ coveredByKeeps (getKeepRanges D dets) x ∨
      inGapLE dets (getKeepRanges D dets) D (1/10) x := by
  rcases eq_or_ne dets [] with rfl | hne
  · right
    left
    have hK : getKeepRanges D [] = [{ start := 0, «end» := D }] := by
      simp [getKeepRanges, hD.ne']
    rw [hK]
    exact ⟨{ start := 0, «end» := D }, List.mem_singleton_self _, hx0, hxD⟩
  · set sorted := List.insertionSort (fun a b => a.start ≤ b.start) dets with hsorted_def
    have hperm : List.Perm sorted dets := List.perm_insertionSort _ dets
    have hsne : sorted ≠ [] := by
      intro h
      rw [h] at hperm
      exact hne hperm.symm.eq_nil
    have hin' : ∀ d ∈ sorted, 0 ≤ d.start ∧ d.start ≤ d.«end» ∧ d.«end» ≤ D :=
      fun d hd => hin d (hperm.mem_iff.mp hd)
    have hsortedS : sorted.Pairwise (fun a b => a.start ≤ b.start) :=
      List.sorted_insertionSort _ dets
    have hdisjS : sorted.Pairwise (fun a b => a.«end» < b.start ∨ b.«end» < a.start) := by
      refine (List.Perm.pairwise_iff ?_ hperm).mpr hdisj
      intro a b hab
      exact hab.symm
    have hchain : sorted.Pairwise (fun a b => a.«end» < b.start) := by
      refine (hsortedS.and hdisjS).imp_of_mem ?_
      intro a b ha hb hr
      rcases hr with ⟨hle, hor | hor⟩
      · exact hor
      · linarith [(hin' a ha).2.1, (hin' b hb).2.1]
    have hstart0 : ∀ d ∈ sorted, (0 : ℚ) ≤ d.start := fun d hd => (hin' d hd).1
    have hse' : ∀ d ∈ sorted, d.start ≤ d.«end» := fun d hd => (hin' d hd).2.1
    have hKR := getKeepRanges_eq D dets hD.ne' hne
    rw [← hsorted_def] at hKR
    have hcur := sweep_cursor sorted 0
    rcases le_or_lt x (sweep sorted 0).2 with hxcf | hxcf
    · have hmain := sweep_covers sorted 0 x hsne hse' hstart0 hchain hx0 hxcf
      rcases hmain with hcov | hcov | ⟨a, b, ha1, ha2, ha3, ha4, ha5, ha6⟩
      · left
        rcases hcov with ⟨d, hd, hp⟩
        exact ⟨d, hperm.mem_iff.mp hd, hp⟩
      · right
        left
        rcases hcov with ⟨k, hk, hp⟩
        rw [hKR]
        refine ⟨k, ?_, hp⟩
        split
        · exact List.mem_append_left _ hk
        · exact hk
      · right
        right
        have hbD : b ≤ D := by
          rcases ha6 with ⟨d, hd, _, h2⟩
          exact le_trans h2 (hin' d hd).2.2
        refine ⟨a, b, ha1, ha2, ha3, hbD, ha4, ?_, ?_⟩
        · rcases ha5 with rfl | ⟨d, hd, hp⟩
          · exact Or.inl rfl
          · exact Or.inr (Or.inl ⟨d, hperm.mem_iff.mp hd, hp⟩)
        · rcases ha6 with ⟨d, hd, hp⟩
          exact Or.inr (Or.inl ⟨d, hperm.mem_iff.mp hd, hp⟩)
    · rw [hKR]
      by_cases hfin : (sweep sorted 0).2 < D - 1/10
      · right
        left
        rw [if_pos hfin]
        exact ⟨{ start := (sweep sorted 0).2, «end» := D },
          List.mem_append_right _ (List.mem_singleton_self _), hxcf.le, hxD⟩
      · right
        right
        rw [if_neg hfin]
        refine ⟨(sweep sorted 0).2, D, hcur.1, hxcf.le, hxD, le_refl _,
          by linarith [not_lt.mp hfin], ?_, Or.inl rfl⟩
        rcases hcur.2 with h0 | ⟨d, hd, he⟩
        · exact Or.inl h0
        · refine Or.inr (Or.inl ⟨d, hperm.mem_iff.mp hd, ?_, le_of_eq he⟩)
          rw [he]
          exact (hin' d hd).2.1

/-- Witness for `roundTrip_amended` at duration 10, a single detection
`{2, 4}`, and the point 1. -/
theorem roundTrip_amended_witness :
    coveredByDetections [{ start := 2, «end» := 4, confidence := 1 }] 1 ∨
      coveredByKeeps (getKeepRanges 10 [{ start := 2, «end» := 4, confidence := 1 }]) 1 ∨
      inGapLE [{ start := 2, «end» := 4, confidence := 1 }]
        (getKeepRanges 10 [{ start := 2, «end» := 4, confidence := 1 }]) 10 (1/10) 1 :=
  roundTrip_amended 10 [{ start := 2, «end» := 4, confidence := 1 }] (by norm_num)
    (by
      intro d hd
      rw [List.mem_singleton] at hd
      subst hd
      norm_num)
    (List.pairwise_singleton _ _) (List.pairwise_singleton _ _) 1 (by norm_num) (by norm_num)

/-- Claim C1 counterexample: with duration 10 and the single detection
`{0.1, 10}`, the point 0.05 is uncovered and its gap `[0, 0.1]` has length
exactly the 0.1 minimum segment, not strictly smaller. -/
theorem roundTrip_strict_counterexample : ¬ RoundTripStrict := by
  intro h
  have hK : getKeepRanges 10 [{ start := 1/10, «end» := 10, confidence := 1 }] = [] := by
    norm_num [getKeepRanges, sweep, List.insertionSort, List.orderedInsert, max_def]
  have hinst := h 10 [{ start := 1/10, «end» := 10, confidence := 1 }] (by norm_num)
    (by
      intro d hd
      rw [List.mem_singleton] at hd
      subst hd
      norm_num)
    (List.pairwise_singleton _ _) (List.pairwise_singleton _ _)
    (1/20) (by norm_num) (by norm_num)
  have hKe : ∀ y : ℚ, ¬ coveredByKeeps (getKeepRanges 10
      [{ start := 1/10, «end» := 10, confidence := 1 }]) y := by
    intro y hy
    rw [hK] at hy
    rcases hy with ⟨k, hk, _⟩
    exact absurd hk (List.not_mem_nil k)
  rcases hinst with hcov | hcov | hgap
  · rcases hcov with ⟨d, hd, h1, h2⟩
    rw [List.mem_singleton] at hd
    subst hd
    norm_num at h1
  · exact hKe _ hcov
  · rcases hgap with ⟨a, b, ha0, hax, hxb, hbD, hlen, hA, hB⟩
    rcases hB with rfl | hBd | hBk
    · linarith
    · rcases hBd with ⟨d, hd, hd1, hd2⟩
      rw [List.mem_singleton] at hd
      subst hd
      norm_num at hd1
      rcases hA with rfl | hAd | hAk
      · linarith
      · rcases hAd with ⟨d', hd', hd1', hd2'⟩
        rw [List.mem_singleton] at hd'
        subst hd'
        norm_num at hd1'
        linarith
      · exact hKe _ hAk
    · exact hKe _ hBk

/-- Claim C2 counterexample: the zero-length detection `{5, 5}` against
duration 10 produces the keep ranges `[0, 5]` and `[5, 10]`, which both
contain the point 5 and hence are not disjoint as closed intervals. -/
theorem keepInvariant_strict_counterexample : ¬ KeepInvariantStrict := by
  intro h
  have hK : getKeepRanges 10 [{ start := 5, «end» := 5, confidence := 1 }] =
      [{ start := 0, «end» := 5 }, { start := 5, «end» := 10 }] := by
    norm_num [getKeepRanges, sweep, List.insertionSort, List.orderedInsert, max_def]
  obtain ⟨hdisj, -, -⟩ := h 10 [{ start := 5, «end» := 5, confidence := 1 }] (by norm_num)
    (by
      intro d hd
      rw [List.mem_singleton] at hd
      subst hd
      norm_num)
  rw [hK] at hdisj
  have hpair := List.rel_of_pairwise_cons hdisj (List.mem_singleton_self _) 5
  apply hpair
  norm_num

/-- Claim C2 (amended): the keep ranges are pairwise non-overlapping — each
range ends at or before the next begins, so two ranges share at most a single
boundary point — sorted ascending by start, and each longer than 0.1. -/
theorem keepInvariant_amended (D : ℚ) (dets : List DetectionRange) (hD : 1/10 < D)
    (hse : ∀ d ∈ dets, d.start ≤ d.«end») :
    (getKeepRanges D dets).Pairwise (fun k k' => k.«end» ≤ k'.start) ∧
    (getKeepRanges D dets).Pairwise (fun k k' => k.start ≤ k'.start) ∧
    ∀ k ∈ getKeepRanges D dets, 1/10 < k.«end» - k.start := by
  have hD0 : D ≠ 0 := by
    intro h
    rw [h] at hD
    norm_num at hD
  rcases eq_or_ne dets [] with rfl | hne
  · have hK : getKeepRanges D [] = [{ start := 0, «end» := D }] := by
      simp [getKeepRanges, hD0]
    rw [hK]
    refine ⟨List.pairwise_singleton _ _, List.pairwise_singleton _ _, ?_⟩
    intro k hk
    rw [List.mem_singleton] at hk
    subst hk
    show 1/10 < D - 0
    linarith
  · set sorted := List.insertionSort (fun a b => a.start ≤ b.start) dets with hsorted_def
    have hperm : List.Perm sorted dets := List.perm_insertionSort _ dets
    have hse' : ∀ d ∈ sorted, d.start ≤ d.«end» :=
      fun d hd => hse d (hperm.mem_iff.mp hd)
    obtain ⟨hpw, hmem⟩ := sweep_keeps_spec sorted 0 hse'
    have hKR := getKeepRanges_eq D dets hD0 hne
    rw [← hsorted_def] at hKR
    rw [hKR]
    by_cases hfin : (sweep sorted 0).2 < D - 1/10
    · rw [if_pos hfin]
      have hlen : ∀ k ∈ (sweep sorted 0).1 ++
          [{ start := (sweep sorted 0).2, «end» := D }], 1/10 < k.«end» - k.start := by
        intro k hk
        rcases List.mem_append.mp hk with hk | hk
        · have := (hmem k hk).2.1
          linarith
        · rw [List.mem_singleton] at hk
          subst hk
          show 1/10 < D - (sweep sorted 0).2
          linarith
      have hchain2 : ((sweep sorted 0).1 ++
          [({ start := (sweep sorted 0).2, «end» := D } : Range)]).Pairwise
            (fun k k' => k.«end» ≤ k'.start) := by
        rw [List.pairwise_append]
        refine ⟨hpw, List.pairwise_singleton _ _, ?_⟩
        intro k hk k' hk'
        rw [List.mem_singleton] at hk'
        subst hk'
        exact (hmem k hk).2.2
      refine ⟨hchain2, ?_, hlen⟩
      refine hchain2.imp_of_mem ?_
      intro a b ha hb hr
      have h1 := hlen a ha
      linarith
    · rw [if_neg hfin]
      refine ⟨hpw, ?_, ?_⟩
      · refine hpw.imp_of_mem ?_
        intro a b ha hb hr
        have := (hmem a ha).2.1
        linarith
      · intro k hk
        have := (hmem k hk).2.1
        linarith

/-- Witness for `keepInvariant_amended` at duration 10 and the single
detection `{2, 4}`. -/
theorem keepInvariant_amended_witness :
    (getKeepRanges 10 [({ start := 2, «end» := 4, confidence := 1 } : DetectionRange)]).Pairwise
        (fun k k' => k.«end» ≤ k'.start) ∧
    (getKeepRanges 10 [({ start := 2, «end» := 4, confidence := 1 } : DetectionRange)]).Pairwise
        (fun k k' => k.start ≤ k'.start) ∧
    ∀ k ∈ getKeepRanges 10 [({ start := 2, «end» := 4, confidence := 1 } : DetectionRange)],
      1/10 < k.«end» - k.start :=
  keepInvariant_amended 10 [{ start := 2, «end» := 4, confidence := 1 }] (by norm_num)
    (by
      intro d hd
      rw [List.mem_singleton] at hd
      subst hd
      norm_num)

end Fredalizer
